import Mathlib

/-!
Verification of the linear-algebra core of the `raytracing` repository:
fixed-dimension matrices with in-place Gauss-Jordan inversion
(`src/core/matrix.rs`), the homogeneous transform protocol and the transform
builders (`src/core/transformations.rs`, `src/core/point.rs`), the scalar
vector types (`src/core/vec3.rs`, `src/core/color.rs`) and the pixel canvas
(`src/core/canvas.rs`).  The scalar type `f64` is modelled by an arbitrary
linearly ordered field (exact real arithmetic).
-/

/-- Mathlib's matrix type, aliased before the raytracer's own `Matrix`
structure shadows the name inside the `Raytracing` namespace. -/
abbrev MathlibMatrix (m n : Type) (β : Type) : Type := Matrix m n β

set_option linter.unusedSectionVars false
set_option linter.unusedVariables false

namespace Raytracing

/-- Embedding of `Matrix<const R, const C>` from `src/core/matrix.rs`:
`pub rows: [[f64; C]; R]`, a row-major grid of scalars, modelled as a
function of row index and column index. -/
structure Matrix (R C : ℕ) (α : Type) where
  rows : Fin R → Fin C → α

variable {α : Type} [LinearOrderedField α] {R C N T : ℕ}

instance [DecidableEq α] : DecidableEq (Matrix R C α) := fun M M' =>
  decidable_of_iff (M.rows = M'.rows) (by cases M; cases M'; simp)

/-- `Matrix::new(rows)`. -/
def Matrix.new (rows : Fin R → Fin C → α) : Matrix R C α := ⟨rows⟩

/-- `Matrix::identity::<T>()`: row `r` is `r` zeros, then a one, then
`T - 1 - r` zeros, i.e. entry `(r, c)` is `1` when `c = r` and `0`
otherwise. -/
def Matrix.identity (T : ℕ) (α : Type) [LinearOrderedField α] : Matrix T T α :=
  ⟨fun r c => if c = r then 1 else 0⟩

/-- `Matrix::cols()`: the `c`-th column collects `row[c]` from each row in
row order. -/
def Matrix.cols (M : Matrix R C α) : Fin C → Fin R → α :=
  fun c r => M.rows r c

/-- `Matrix::transpose()`: the rows of the result are the columns of the
input, in column order. -/
def Matrix.transpose (M : Matrix R C α) : Matrix C R α :=
  ⟨M.cols⟩

/-- `Matrix::elements()`: the rows flat-mapped in row order, i.e. the
row-major flattening of the grid. -/
def Matrix.elements (M : Matrix R C α) : List α :=
  ((List.finRange R).map fun r => (List.finRange C).map fun c => M.rows r c).flatten

/-- `Mul for Matrix`: output cell `(r, c)` is the dot product of row `r`
of the left operand with column `c` of the right operand. -/
def Matrix.mul (A : Matrix R N α) (B : Matrix N C α) : Matrix R C α :=
  ⟨fun r c => ∑ n : Fin N, A.rows r n * B.cols c n⟩

instance : HMul (Matrix R N α) (Matrix N C α) (Matrix R C α) := ⟨Matrix.mul⟩

/-- `From<f64> for Matrix`: a matrix filled uniformly with one scalar. -/
def Matrix.fill (v : α) : Matrix R C α := ⟨fun _ _ => v⟩

/-- `AbsDiffEq::default_epsilon()` for `Matrix`: the literal `1e-4`. -/
def Matrix.defaultEpsilon : α := 1 / 10000

/-- `AbsDiffEq::abs_diff_eq` for `Matrix`: zip the two flattened element
sequences and require every pair to differ by at most `ε` in absolute
value (the `approx` crate's `AbsDiff` comparison on `f64`). -/
def Matrix.absDiffEq (M M' : Matrix R C α) (ε : α) : Prop :=
  ∀ ab ∈ M.elements.zip M'.elements, |ab.1 - ab.2| ≤ ε

instance [DecidableEq α] (M M' : Matrix R C α) (ε : α) :
    Decidable (M.absDiffEq M' ε) :=
  List.decidableBAll _ _

/-- Models the `IndexMut` impl for `Matrix` (its call sites write
`m[(r, c)] = v` in `transformations.rs`; the impl itself is not part of
this slice): functional single-cell update of the row grid. -/
def updateEntry (f : Fin R → Fin C → α) (a : Fin R) (b : Fin C) (v : α) :
    Fin R → Fin C → α :=
  fun i j => if i = a ∧ j = b then v else f i j

/-- First loop of one pivot iteration of `Matrix::inverse`
(`src/core/matrix.rs` lines 69-73): `for j in 0..T { if j != p {
inv_rows[j][p] = -inv_rows[j][p] / pivot } }`, executed in place. -/
def invPhase1 (p : Fin T) (pivot : α) (f : Fin T → Fin T → α) :
    Fin T → Fin T → α :=
  (List.finRange T).foldl
    (fun g j => if j = p then g else updateEntry g j p (-(g j p) / pivot)) f

/-- Second loop of one pivot iteration (lines 75-81):
`for i { for j { if i != p && j != p { inv_rows[i][j] += inv_rows[p][j] *
inv_rows[i][p] } } }`, executed in place. -/
def invPhase2 (p : Fin T) (f : Fin T → Fin T → α) : Fin T → Fin T → α :=
  (List.finRange T).foldl
    (fun g i =>
      (List.finRange T).foldl
        (fun g2 j =>
          if i ≠ p ∧ j ≠ p then updateEntry g2 i j (g2 i j + g2 p j * g2 i p)
          else g2)
        g)
    f

/-- Third loop of one pivot iteration (lines 83-87): `for j { if j != p {
inv_rows[p][j] = inv_rows[p][j] / pivot } }`, executed in place. -/
def invPhase3 (p : Fin T) (pivot : α) (f : Fin T → Fin T → α) :
    Fin T → Fin T → α :=
  (List.finRange T).foldl
    (fun g j => if j = p then g else updateEntry g p j (g p j / pivot)) f

/-- One full pivot iteration of `Matrix::inverse` (lines 66-90): read
`pivot = inv_rows[p][p]`, run the three loops in order, finally set
`inv_rows[p][p] = 1.0 / pivot`. -/
def invStep (f : Fin T → Fin T → α) (p : Fin T) : Fin T → Fin T → α :=
  let pivot := f p p
  updateEntry (invPhase3 p pivot (invPhase2 p (invPhase1 p pivot f))) p p
    (1 / pivot)

/-- `Matrix::inverse` (`src/core/matrix.rs` lines 63-93): copy the rows and
run the pivot iteration for `p = 0` to `T - 1` in increasing order. -/
def Matrix.inverse (M : Matrix T T α) : Matrix T T α :=
  ⟨(List.finRange T).foldl invStep M.rows⟩

/-- One pivot iteration as the spec words it, with every new value written
as a formula in the values `N` held at the start of the iteration and
`pivot = N p p`: row `j ≠ p` of column `p` becomes `-N[j][p] / pivot`;
cell `(i, j)` with `i ≠ p` and `j ≠ p` becomes
`N[i][j] + N[p][j] * (-N[i][p] / pivot)` — the column-`p` value already
updated by the previous step times the pre-update pivot-row value
`N[p][j]`; column `j ≠ p` of row `p` becomes `N[p][j] / pivot`; and the
pivot cell becomes `1 / pivot`. -/
def gjStep (N : Fin T → Fin T → α) (p : Fin T) : Fin T → Fin T → α :=
  fun i j =>
    if i = p then
      if j = p then 1 / N p p else N p j / N p p
    else
      if j = p then -(N i j) / N p p
      else N i j + N p j * (-(N i p) / N p p)

/-- Gauss-Jordan inversion as described by the spec: the pivot iterations
`gjStep` applied for `p = 0` to `T - 1` in increasing order. -/
def Matrix.specInverse (M : Matrix T T α) : Matrix T T α :=
  ⟨(List.finRange T).foldl gjStep M.rows⟩

/-- The intermediate state of the elimination after the first `k` pivot
iterations. -/
def gjSweep (M : Matrix T T α) (k : ℕ) : Fin T → Fin T → α :=
  ((List.finRange T).take k).foldl gjStep M.rows

/-- Every diagonal pivot is nonzero at the time `Matrix::inverse` reads it:
the matrix is non-singular in the spec's sense. -/
def Matrix.PivotsNonzero (M : Matrix T T α) : Prop :=
  ∀ p : Fin T, gjSweep M p.val p p ≠ 0

instance [DecidableEq α] (M : Matrix T T α) : Decidable M.PivotsNonzero :=
  Fintype.decidableForallFintype

/-! ### The in-place pivot iteration computes the spec's formulas

The three loops of `Matrix::inverse` write each cell once, and every value
they write reads only cells that no other write of the same loop touches;
so the sequential in-place execution realizes the simultaneous per-pivot
update `gjStep`.  Each loop is characterized by induction over the
(duplicate-free) list of visited indices. -/

lemma foldl_fixed {β γ : Type} (g : β) (L : List γ) :
    L.foldl (fun x _ => x) g = g := by
  induction L with
  | nil => rfl
  | cons a L ih => exact ih

lemma invPhase1_foldl (p : Fin T) (pivot : α) :
    ∀ L : List (Fin T), L.Nodup → ∀ f : Fin T → Fin T → α,
      L.foldl (fun g j => if j = p then g
          else updateEntry g j p (-(g j p) / pivot)) f
        = fun i j =>
          if j = p ∧ i ≠ p ∧ i ∈ L then -(f i j) / pivot else f i j := by
  intro L
  induction L with
  | nil => intro _ f; funext i j; simp
  | cons a L ih =>
    intro hnd f
    have ha : a ∉ L := (List.nodup_cons.mp hnd).1
    rw [List.foldl_cons, ih (List.nodup_cons.mp hnd).2]
    have hstep : ∀ i j, (if a = p then f
        else updateEntry f a p (-(f a p) / pivot)) i j
        = if i = a ∧ j = p ∧ a ≠ p then -(f i j) / pivot else f i j := by
      intro i j
      by_cases hap : a = p
      · simp [hap]
      · by_cases h : i = a ∧ j = p
        · obtain ⟨h1, h2⟩ := h
          simp [hap, updateEntry, h1, h2]
        · simp [hap, updateEntry, h]
    funext i j
    simp only [hstep, List.mem_cons]
    by_cases hia : i = a
    · subst hia
      by_cases hj : j = p <;> by_cases hip : i = p <;>
        simp [hj, hip, ha]
    · simp [hia]

lemma invPhase3_foldl (p : Fin T) (pivot : α) :
    ∀ L : List (Fin T), L.Nodup → ∀ f : Fin T → Fin T → α,
      L.foldl (fun g j => if j = p then g
          else updateEntry g p j (g p j / pivot)) f
        = fun i j =>
          if i = p ∧ j ≠ p ∧ j ∈ L then f i j / pivot else f i j := by
  intro L
  induction L with
  | nil => intro _ f; funext i j; simp
  | cons a L ih =>
    intro hnd f
    have ha : a ∉ L := (List.nodup_cons.mp hnd).1
    rw [List.foldl_cons, ih (List.nodup_cons.mp hnd).2]
    have hstep : ∀ i j, (if a = p then f
        else updateEntry f p a (f p a / pivot)) i j
        = if i = p ∧ j = a ∧ a ≠ p then f i j / pivot else f i j := by
      intro i j
      by_cases hap : a = p
      · simp [hap]
      · by_cases h : i = p ∧ j = a
        · obtain ⟨h1, h2⟩ := h
          simp [hap, updateEntry, h1, h2]
        · simp [hap, updateEntry, h]
    funext i j
    simp only [hstep, List.mem_cons]
    by_cases hja : j = a
    · subst hja
      by_cases hj : j = p <;> by_cases hip : i = p <;>
        simp [hj, hip, ha]
    · simp [hja]

lemma invPhase2_inner_foldl (p i : Fin T) (hip : i ≠ p) :
    ∀ L : List (Fin T), L.Nodup → ∀ g : Fin T → Fin T → α,
      L.foldl (fun g2 j => if i ≠ p ∧ j ≠ p then
          updateEntry g2 i j (g2 i j + g2 p j * g2 i p) else g2) g
        = fun a b =>
          if a = i ∧ b ≠ p ∧ b ∈ L then g a b + g p b * g a p
          else g a b := by
  intro L
  induction L with
  | nil => intro _ g; funext a b; simp
  | cons c L ih =>
    intro hnd g
    have hc : c ∉ L := (List.nodup_cons.mp hnd).1
    rw [List.foldl_cons, ih (List.nodup_cons.mp hnd).2]
    have hstep : ∀ a b, (if i ≠ p ∧ c ≠ p then
        updateEntry g i c (g i c + g p c * g i p) else g) a b
        = if a = i ∧ b = c ∧ c ≠ p then g a b + g p b * g a p
        else g a b := by
      intro a b
      by_cases hcp : c = p
      · simp [hcp]
      · by_cases h : a = i ∧ b = c
        · obtain ⟨h1, h2⟩ := h
          simp [hip, hcp, updateEntry, h1, h2]
        · simp [hip, hcp, updateEntry, h]
    funext a b
    simp only [hstep, List.mem_cons]
    have hpi : p ≠ i := Ne.symm hip
    by_cases hbc : b = c
    · subst hbc
      by_cases hb : b = p <;> by_cases hai : a = i <;>
        simp [hb, hai, hc, hpi, hip]
    · by_cases hcp : p = c
      · subst hcp
        by_cases hai : a = i <;> by_cases hb : b = p <;>
          simp [hbc, hai, hb, hpi, hip, hc]
      · have hcp2 : ¬c = p := fun h => hcp h.symm
        by_cases hai : a = i <;> by_cases hb : b = p <;>
          simp [hbc, hai, hb, hcp, hcp2, hpi, hip, hc]

lemma invPhase2_foldl (p : Fin T) :
    ∀ L : List (Fin T), L.Nodup → ∀ g : Fin T → Fin T → α,
      L.foldl (fun g i => (List.finRange T).foldl
          (fun g2 j => if i ≠ p ∧ j ≠ p then
            updateEntry g2 i j (g2 i j + g2 p j * g2 i p) else g2) g) g
        = fun a b =>
          if a ≠ p ∧ b ≠ p ∧ a ∈ L then g a b + g p b * g a p
          else g a b := by
  intro L
  induction L with
  | nil => intro _ g; funext a b; simp
  | cons c L ih =>
    intro hnd g
    have hc : c ∉ L := (List.nodup_cons.mp hnd).1
    rw [List.foldl_cons, ih (List.nodup_cons.mp hnd).2]
    have hstep : ∀ a b, ((List.finRange T).foldl
        (fun g2 j => if c ≠ p ∧ j ≠ p then
          updateEntry g2 c j (g2 c j + g2 p j * g2 c p) else g2) g) a b
        = if a = c ∧ b ≠ p ∧ c ≠ p then g a b + g p b * g a p
        else g a b := by
      intro a b
      by_cases hcp : c = p
      · have hconst : (fun g2 j => if c ≠ p ∧ j ≠ p then
            updateEntry g2 c j (g2 c j + g2 p j * g2 c p) else g2)
            = fun (g2 : Fin T → Fin T → α) _ => g2 := by
          funext g2 j; simp [hcp]
        rw [hconst, foldl_fixed]
        simp [hcp]
      · rw [invPhase2_inner_foldl p c hcp (List.finRange T)
          (List.nodup_finRange T) g]
        simp [List.mem_finRange, hcp]
    funext a b
    simp only [hstep, List.mem_cons]
    by_cases hac : a = c
    · subst hac
      by_cases hap : a = p <;> by_cases hb : b = p <;>
        simp [hap, hb, hc]
    · by_cases hcp : p = c
      · subst hcp
        by_cases hap : a = p <;> by_cases hb : b = p <;>
          simp [hac, hap, hb, hc]
      · have hcp2 : ¬c = p := fun h => hcp h.symm
        by_cases hap : a = p <;> by_cases hb : b = p <;>
          simp [hac, hcp, hcp2, hap, hb, hc]

lemma invPhase1_eq (p : Fin T) (pivot : α) (f : Fin T → Fin T → α) :
    invPhase1 p pivot f
      = fun i j => if j = p ∧ i ≠ p then -(f i j) / pivot else f i j := by
  rw [invPhase1,
    invPhase1_foldl p pivot (List.finRange T) (List.nodup_finRange T) f]
  simp [List.mem_finRange]

lemma invPhase3_eq (p : Fin T) (pivot : α) (f : Fin T → Fin T → α) :
    invPhase3 p pivot f
      = fun i j => if i = p ∧ j ≠ p then f i j / pivot else f i j := by
  rw [invPhase3,
    invPhase3_foldl p pivot (List.finRange T) (List.nodup_finRange T) f]
  simp [List.mem_finRange]

lemma invPhase2_eq (p : Fin T) (g : Fin T → Fin T → α) :
    invPhase2 p g
      = fun a b =>
        if a ≠ p ∧ b ≠ p then g a b + g p b * g a p else g a b := by
  rw [invPhase2,
    invPhase2_foldl p (List.finRange T) (List.nodup_finRange T) g]
  simp [List.mem_finRange]

/-- The in-place pivot iteration of `Matrix::inverse` computes exactly the
simultaneous per-pivot update described by the spec. -/
lemma invStep_eq_gjStep (f : Fin T → Fin T → α) (p : Fin T) :
    invStep f p = gjStep f p := by
  funext i j
  simp only [invStep, gjStep, invPhase1_eq, invPhase2_eq, invPhase3_eq,
    updateEntry]
  by_cases hip : i = p <;> by_cases hjp : j = p <;>
    simp [hip, hjp]

lemma inverse_eq_specInverse (M : Matrix T T α) :
    M.inverse = M.specInverse := by
  have h : (invStep : (Fin T → Fin T → α) → Fin T → Fin T → Fin T → α)
      = gjStep := by
    funext f p
    exact invStep_eq_gjStep f p
  rw [Matrix.inverse, Matrix.specInverse, h]

lemma gjSweep_zero (M : Matrix T T α) : gjSweep M 0 = M.rows := rfl

lemma gjSweep_succ (M : Matrix T T α) (k : ℕ) (hk : k < T) :
    gjSweep M (k + 1) = gjStep (gjSweep M k) ⟨k, hk⟩ := by
  have hlen : k < (List.finRange T).length := by simpa using hk
  rw [gjSweep, gjSweep, List.take_succ, List.foldl_append]
  have : (List.finRange T)[k]? = some ⟨k, hk⟩ := by
    rw [List.getElem?_eq_getElem hlen]
    simp
  rw [this]
  rfl

lemma gjSweep_full (M : Matrix T T α) : gjSweep M T = M.specInverse.rows := by
  rw [gjSweep, Matrix.specInverse]
  congr 1
  exact List.take_of_length_le (by simp)

/-! ### Correctness of the elimination: the exchange-step invariant

Reading the matrix `N` as a relation between two vectors: with
`y = M · x`, after the first `k` pivot iterations the state `N` satisfies
`z = N · w`, where `w` agrees with `y` below index `k` and with `-x` from
`k` on, and `z` agrees with `x` below `k` and with `-y` from `k` on.
Each pivot iteration exchanges the roles of `x k` and `y k`, provided the
pivot it divides by is nonzero.  After a full sweep `x = N · (M · x)` for
every `x`, so the final state is a left inverse of `M` — and hence, square
matrices over a field being Dedekind-finite, also a right inverse. -/

def mulVec (M : Fin T → Fin T → α) (x : Fin T → α) (j : Fin T) : α :=
  ∑ m, M j m * x m

def wvec (M : Fin T → Fin T → α) (x : Fin T → α) (k : ℕ) (j : Fin T) : α :=
  if j.val < k then mulVec M x j else -(x j)

def zvec (M : Fin T → Fin T → α) (x : Fin T → α) (k : ℕ) (i : Fin T) : α :=
  if i.val < k then x i else -(mulVec M x i)

def ExchangeInv (M N : Fin T → Fin T → α) (k : ℕ) : Prop :=
  ∀ x : Fin T → α, ∀ i : Fin T,
    zvec M x k i = ∑ j, N i j * wvec M x k j

lemma exchangeInv_zero (M : Fin T → Fin T → α) : ExchangeInv M M 0 := by
  intro x i
  simp only [zvec, wvec, Nat.not_lt_zero, if_false]
  simp [mulVec, mul_neg, Finset.sum_neg_distrib]

lemma exchangeInv_step (M N : Fin T → Fin T → α) (k : ℕ) (p : Fin T)
    (hpk : p.val = k) (hinv : ExchangeInv M N k) (hd : N p p ≠ 0) :
    ExchangeInv M (gjStep N p) (k + 1) := by
  intro x i
  have hw : ∀ j : Fin T, wvec M x (k + 1) j
      = if j = p then mulVec M x j else wvec M x k j := by
    intro j
    by_cases hj : j = p
    · subst hj
      simp [wvec, hpk, Nat.lt_succ_self]
    · have hjk : j.val ≠ k := fun h => hj (Fin.ext (h.trans hpk.symm))
      simp only [wvec, if_neg hj]
      rw [if_congr (show j.val < k + 1 ↔ j.val < k by omega) rfl rfl]
  have hwp : wvec M x k p = -(x p) := by
    rw [wvec, if_neg (by omega)]
  have hrow := hinv x p
  rw [Fintype.sum_eq_add_sum_compl p, hwp] at hrow
  have hzp : zvec M x k p = -(mulVec M x p) := by
    rw [zvec, if_neg (by omega)]
  rw [hzp] at hrow
  have key : N p p * x p
      = mulVec M x p + ∑ j ∈ ({p}ᶜ : Finset (Fin T)), N p j * wvec M x k j := by
    linear_combination hrow
  by_cases hip : i = p
  · rw [hip]
    have hlhs : zvec M x (k + 1) p = x p := by
      rw [zvec, if_pos (by omega)]
    rw [hlhs, Fintype.sum_eq_add_sum_compl p]
    have hstep_diag : gjStep N p p p = 1 / N p p := by
      simp [gjStep]
    have hrest : ∑ j ∈ ({p}ᶜ : Finset (Fin T)),
          gjStep N p p j * wvec M x (k + 1) j
        = (∑ j ∈ ({p}ᶜ : Finset (Fin T)), N p j * wvec M x k j) / N p p := by
      rw [Finset.sum_div]
      refine Finset.sum_congr rfl fun j hj => ?_
      have hjp : j ≠ p := by simpa using hj
      rw [hw j, if_neg hjp]
      have hgj : gjStep N p p j = N p j / N p p := by
        simp [gjStep, hjp]
      rw [hgj, div_mul_eq_mul_div]
    rw [hrest, hw p, if_pos rfl, hstep_diag]
    field_simp
    linear_combination key
  · have hlhs : zvec M x (k + 1) i = zvec M x k i := by
      have hik : i.val ≠ k := fun h => hip (Fin.ext (h.trans hpk.symm))
      rw [zvec, zvec,
        if_congr (show i.val < k + 1 ↔ i.val < k by omega) rfl rfl]
    have hi' := hinv x i
    rw [Fintype.sum_eq_add_sum_compl p, hwp] at hi'
    rw [hlhs, hi', Fintype.sum_eq_add_sum_compl p]
    have hoff : gjStep N p i p = -(N i p) / N p p := by
      simp [gjStep, hip]
    have hrest : ∑ j ∈ ({p}ᶜ : Finset (Fin T)),
          gjStep N p i j * wvec M x (k + 1) j
        = ∑ j ∈ ({p}ᶜ : Finset (Fin T)), N i j * wvec M x k j
          + (-(N i p) / N p p)
            * ∑ j ∈ ({p}ᶜ : Finset (Fin T)), N p j * wvec M x k j := by
      rw [Finset.mul_sum, ← Finset.sum_add_distrib]
      refine Finset.sum_congr rfl fun j hj => ?_
      have hjp : j ≠ p := by simpa using hj
      rw [hw j, if_neg hjp]
      have hgj : gjStep N p i j = N i j + N p j * (-(N i p) / N p p) := by
        simp [gjStep, hip, hjp]
      rw [hgj]
      ring
    rw [hrest, hw p, if_pos rfl, hoff]
    field_simp
    linear_combination (-(N i p) * N p p) * key

omit [LinearOrderedField α] in
lemma Matrix.entry_ext {α : Type} (M M' : Matrix R C α)
    (h : ∀ i j, M.rows i j = M'.rows i j) : M = M' := by
  cases M; cases M'
  simp only [Matrix.mk.injEq]
  funext i j
  exact h i j

lemma exchangeInv_sweep (M : Matrix T T α) (hpiv : M.PivotsNonzero) :
    ∀ k, k ≤ T → ExchangeInv M.rows (gjSweep M k) k := by
  intro k
  induction k with
  | zero => intro _; rw [gjSweep_zero]; exact exchangeInv_zero M.rows
  | succ k ih =>
    intro hk1
    have hk : k < T := hk1
    rw [gjSweep_succ M k hk]
    exact exchangeInv_step M.rows (gjSweep M k) k ⟨k, hk⟩ rfl
      (ih (Nat.le_of_lt hk)) (hpiv ⟨k, hk⟩)

lemma specInverse_mul_left (M : Matrix T T α) (hpiv : M.PivotsNonzero) :
    M.specInverse * M = Matrix.identity T α := by
  have hfull := exchangeInv_sweep M hpiv T le_rfl
  rw [gjSweep_full] at hfull
  apply Matrix.entry_ext
  intro i c
  have hx := hfull (fun m => if m = c then 1 else 0) i
  have hz : zvec M.rows (fun m => if m = c then 1 else 0) T i
      = if i = c then 1 else 0 := by
    rw [zvec, if_pos i.isLt]
  have hwv : ∀ j : Fin T, wvec M.rows (fun m => if m = c then 1 else 0) T j
      = M.rows j c := by
    intro j
    rw [wvec, if_pos j.isLt, mulVec]
    simp [mul_ite, Finset.sum_ite_eq']
  rw [hz] at hx
  have hmul : (M.specInverse * M).rows i c
      = ∑ j, M.specInverse.rows i j * M.rows j c := rfl
  rw [hmul]
  have hsum : ∑ j, M.specInverse.rows i j * M.rows j c
      = ∑ j, M.specInverse.rows i j
          * wvec M.rows (fun m => if m = c then 1 else 0) T j := by
    refine Finset.sum_congr rfl fun j _ => ?_
    rw [hwv j]
  rw [hsum, ← hx, Matrix.identity]
  by_cases hic : i = c <;> simp [hic, eq_comm]

/-- The view of a raytracer matrix as a Mathlib matrix. -/
def Matrix.toMathlib (M : Matrix R C α) : MathlibMatrix (Fin R) (Fin C) α :=
  Matrix.of M.rows

lemma toMathlib_mul (A : Matrix R N α) (B : Matrix N C α) :
    (A * B).toMathlib = A.toMathlib * B.toMathlib := by
  ext i c
  rw [Matrix.mul_apply]
  rfl

lemma toMathlib_identity : (Matrix.identity T α).toMathlib = 1 := by
  ext i j
  rw [Matrix.one_apply]
  by_cases h : i = j <;>
    simp [Matrix.identity, Matrix.toMathlib, h, eq_comm]

lemma toMathlib_inj (M M' : Matrix R C α)
    (h : M.toMathlib = M'.toMathlib) : M = M' := by
  apply Matrix.entry_ext
  intro i j
  exact congrFun (congrFun h i) j

/-- If every pivot encountered is nonzero, the Gauss-Jordan sweep produces a
two-sided inverse: `M × specInverse(M)` is exactly the identity. -/
lemma mul_specInverse (M : Matrix T T α) (hpiv : M.PivotsNonzero) :
    M * M.specInverse = Matrix.identity T α := by
  have h1 := specInverse_mul_left M hpiv
  have h2 : M.specInverse.toMathlib * M.toMathlib = 1 := by
    rw [← toMathlib_mul, h1, toMathlib_identity]
  have h3 : M.toMathlib * M.specInverse.toMathlib = 1 :=
    Matrix.mul_eq_one_comm.mp h2
  apply toMathlib_inj
  rw [toMathlib_mul, h3, toMathlib_identity]

/-! ### Epsilon equality, elementwise

The zip of the two row-major flattenings pairs up exactly the corresponding
entries, so the `abs_diff_eq` comparison is equivalent to the elementwise
bound. -/

lemma zip_flatten_map {β γ : Type} (f g : β → List γ) :
    ∀ L : List β, (∀ b, (f b).length = (g b).length) →
      ((L.map f).flatten).zip ((L.map g).flatten)
        = (L.map fun b => (f b).zip (g b)).flatten := by
  intro L hlen
  induction L with
  | nil => rfl
  | cons a L ih =>
    simp only [List.map_cons, List.flatten_cons]
    rw [List.zip_append (hlen a), ih]

lemma elements_zip (M M' : Matrix R C α) :
    M.elements.zip M'.elements
      = ((List.finRange R).map fun r => (List.finRange C).map fun c =>
          (M.rows r c, M'.rows r c)).flatten := by
  rw [Matrix.elements, Matrix.elements,
    zip_flatten_map _ _ (List.finRange R) (fun b => by simp)]
  congr 1
  refine List.map_congr_left fun r _ => ?_
  rw [List.zip_map']

lemma absDiffEq_iff (M M' : Matrix R C α) (ε : α) :
    M.absDiffEq M' ε
      ↔ ∀ (r : Fin R) (c : Fin C), |M.rows r c - M'.rows r c| ≤ ε := by
  rw [Matrix.absDiffEq, elements_zip]
  constructor
  · intro h r c
    refine h (M.rows r c, M'.rows r c) ?_
    rw [List.mem_flatten]
    refine ⟨(List.finRange C).map fun c => (M.rows r c, M'.rows r c), ?_, ?_⟩
    · exact List.mem_map_of_mem _ (List.mem_finRange r)
    · exact List.mem_map_of_mem _ (List.mem_finRange c)
  · intro h ab hab
    rw [List.mem_flatten] at hab
    obtain ⟨l, hl, habl⟩ := hab
    rw [List.mem_map] at hl
    obtain ⟨r, _, rfl⟩ := hl
    rw [List.mem_map] at habl
    obtain ⟨c, _, rfl⟩ := habl
    exact h r c

/-- Exactly equal matrices are epsilon-equal at any nonnegative
tolerance. -/
lemma absDiffEq_of_eq (M M' : Matrix R C α) (ε : α) (h : M = M')
    (hε : 0 ≤ ε) : M.absDiffEq M' ε := by
  rw [absDiffEq_iff]
  intro r c
  rw [h]
  simpa using hε

/-- `Point` from `src/core/point.rs`: a location in 3-space. -/
structure Point (α : Type) where
  x : α
  y : α
  z : α

/-- `Point::new`. -/
def Point.new (x y z : α) : Point α := ⟨x, y, z⟩

/-- `Into<Matrix<4, 1>> for Point` (`src/core/point.rs` lines 113-117):
the homogeneous column `[[x], [y], [z], [1.0]]`. -/
def Point.toColumn (p : Point α) : Matrix 4 1 α :=
  ⟨fun i _ => ![p.x, p.y, p.z, 1] i⟩

/-- `From<Matrix<4, 1>> for Point` (`src/core/point.rs` lines 119-123):
read `m[(0, 0)]`, `m[(1, 0)]`, `m[(2, 0)]`, ignoring the trailing
homogeneous coordinate. -/
def Point.ofColumn (m : Matrix 4 1 α) : Point α :=
  ⟨m.rows 0 0, m.rows 1 0, m.rows 2 0⟩

/-- `AbsDiffEq::default_epsilon()` for `Point`
(`src/core/point.rs` lines 128-130): the literal `1e-10`. -/
def Point.defaultEpsilon : α := 1 / 10000000000

/-- `AbsDiffEq::default_epsilon()` for `Vec3`
(`src/core/vec3.rs` lines 109-111): the literal `1e-10`. -/
def Vec3.defaultEpsilon : α := 1 / 10000000000

/-- `AbsDiffEq::default_epsilon()` for `Color`
(`src/core/color.rs`): the literal `1e-10`. -/
def Color.defaultEpsilon : α := 1 / 10000000000

/-- `Vec3` from `src/core/vec3.rs`: a free direction in 3-space. -/
structure Vec3 (α : Type) where
  x : α
  y : α
  z : α

/-- `Vec3::new`. -/
def Vec3.new (x y z : α) : Vec3 α := ⟨x, y, z⟩

/-- `Vec3::default()` (derived `Default`): the zero vector. -/
def Vec3.zero : Vec3 α := ⟨0, 0, 0⟩

/-- `Vec3::magnitude` (`src/core/vec3.rs` lines 23-25):
`x.abs() + y.abs() + z.abs()`. -/
def Vec3.magnitude (v : Vec3 α) : α := |v.x| + |v.y| + |v.z|

/-- `Vec3::normalize` (`src/core/vec3.rs` lines 27-35): the zero vector
when the magnitude is zero, otherwise each component divided by the
magnitude. -/
def Vec3.normalize (v : Vec3 α) : Vec3 α :=
  let mag := v.magnitude
  if mag = 0 then Vec3.zero else ⟨v.x / mag, v.y / mag, v.z / mag⟩

/-- Modelled from the spec: the homogeneous lift of `Vec3`.  The
`Into<Matrix<4, 1>> for Vec3` impl is not part of this slice (only its
test callers in `transformations.rs` are); §8 of the spec fixes its
behaviour — vectors are invariant under pure translation, i.e. they lift
with a trailing `0` (`w = 0` for directions, per the glossary). -/
def Vec3.toColumn (v : Vec3 α) : Matrix 4 1 α :=
  ⟨fun i _ => ![v.x, v.y, v.z, 0] i⟩

/-- Modelled from the spec: the homogeneous lowering of `Vec3`, reading the
first three entries of the column and ignoring the trailing homogeneous
coordinate, mirroring `From<Matrix<4, 1>> for Point`. -/
def Vec3.ofColumn (m : Matrix 4 1 α) : Vec3 α :=
  ⟨m.rows 0 0, m.rows 1 0, m.rows 2 0⟩

/-- The blanket `Transform` impl (`src/core/transformations.rs` lines
7-16) at type `Point`: lift to a homogeneous column, left-multiply by the
4×4 matrix, lower the result. -/
def Point.transform (p : Point α) (M : Matrix 4 4 α) : Point α :=
  Point.ofColumn (M * p.toColumn)

/-- The blanket `Transform` impl at type `Vec3` (its lift being modelled
from the spec). -/
def Vec3.transform (v : Vec3 α) (M : Matrix 4 4 α) : Vec3 α :=
  Vec3.ofColumn (M * v.toColumn)

/-- `translate` (`src/core/transformations.rs` lines 29-36): the identity
matrix with `m[(0, 3)] = x`, `m[(1, 3)] = y`, `m[(2, 3)] = z`. -/
def translate (x y z : α) : Matrix 4 4 α :=
  ⟨updateEntry (updateEntry (updateEntry (Matrix.identity 4 α).rows 0 3 x)
      1 3 y) 2 3 z⟩

/-- `scale` (`src/core/transformations.rs` lines 49-56): the identity
matrix with `m[(0, 0)] = x`, `m[(1, 1)] = y`, `m[(2, 2)] = z`. -/
def scale (x y z : α) : Matrix 4 4 α :=
  ⟨updateEntry (updateEntry (updateEntry (Matrix.identity 4 α).rows 0 0 x)
      1 1 y) 2 2 z⟩

/-- `rotate_x` (`src/core/transformations.rs` lines 67-75): the identity
matrix with the `(1, 1), (1, 2), (2, 1), (2, 2)` block set from the
cosine and sine of the angle.  `f64::cos` and `f64::sin` are modelled as
explicit function parameters `fcos`, `fsin` (instantiated with
`Real.cos`, `Real.sin` in the theorems), which keeps the builders
executable. -/
def rotateX (fcos fsin : α → α) (radians : α) : Matrix 4 4 α :=
  ⟨updateEntry (updateEntry (updateEntry (updateEntry
      (Matrix.identity 4 α).rows
      1 1 (fcos radians)) 1 2 (-fsin radians))
      2 1 (fsin radians)) 2 2 (fcos radians)⟩

/-- `rotate_y` (`src/core/transformations.rs` lines 86-94). -/
def rotateY (fcos fsin : α → α) (radians : α) : Matrix 4 4 α :=
  ⟨updateEntry (updateEntry (updateEntry (updateEntry
      (Matrix.identity 4 α).rows
      0 0 (fcos radians)) 0 2 (fsin radians))
      2 0 (-fsin radians)) 2 2 (fcos radians)⟩

/-- `rotate_z` (`src/core/transformations.rs` lines 105-113). -/
def rotateZ (fcos fsin : α → α) (radians : α) : Matrix 4 4 α :=
  ⟨updateEntry (updateEntry (updateEntry (updateEntry
      (Matrix.identity 4 α).rows
      0 0 (fcos radians)) 0 1 (-fsin radians))
      1 0 (fsin radians)) 1 1 (fcos radians)⟩

/-- `rotate` (`src/core/transformations.rs` lines 126-128):
`rotate_x(radians_x) * rotate_y(radians_y) * rotate_z(radians_z)`. -/
def rotate (fcos fsin : α → α) (radiansX radiansY radiansZ : α) :
    Matrix 4 4 α :=
  rotateX fcos fsin radiansX * rotateY fcos fsin radiansY *
    rotateZ fcos fsin radiansZ

/-- `Color` from `src/core/color.rs`: an RGB triple. -/
structure Color (α : Type) where
  r : α
  g : α
  b : α

/-- `Color::default()` (derived `Default`). -/
def Color.zero : Color α := ⟨0, 0, 0⟩

/-- `Canvas` from `src/core/canvas.rs`: a width×height pixel grid backed
by a flat `Vec<Color>`. -/
structure Canvas (α : Type) where
  width : ℕ
  height : ℕ
  pixels : List (Color α)

/-- `Canvas::new(width, height)`: `width * height` default pixels. -/
def Canvas.new (width height : ℕ) : Canvas α :=
  ⟨width, height, List.replicate (width * height) Color.zero⟩

/-- `Canvas::pixel_at(x, y)` (`src/core/canvas.rs` lines 40-42), also the
`Index<(usize, usize)>` impl which delegates to it: index the flat pixel
vector at `y * self.width + x`.  Rust panics on an out-of-bounds `Vec`
index; the fallible access is modelled with `Option`. -/
def Canvas.pixelAt (c : Canvas α) (x y : ℕ) : Option (Color α) :=
  c.pixels.get? (y * c.width + x)

/-- A concrete 4×4 rational matrix for the C3 witness. -/
def c3WitnessMatrix : Matrix 4 4 ℚ :=
  Matrix.new fun i j => ![![1, 0, 0, 10], ![0, 1, 0, 20],
    ![0, 0, 1, 30], ![0, 0, 0, 1]] i j

/-! ### The spec's concrete 4×4 inversion example -/

/-- The example matrix of the spec's §8 inversion property. -/
def exampleMatrix : Matrix 4 4 ℚ :=
  ⟨fun i j =>
    if i = 0 then
      if j = 0 then 8 else if j = 1 then -5 else if j = 2 then 9 else 2
    else if i = 1 then
      if j = 0 then 7 else if j = 1 then 5 else if j = 2 then 6 else 1
    else if i = 2 then
      if j = 0 then -6 else if j = 1 then 0 else if j = 2 then 9 else 6
    else
      if j = 0 then -3 else if j = 1 then 0 else if j = 2 then -9 else -4⟩

/-- The expected inverse printed in the spec, to five decimals. -/
def exampleInverseExpected : Matrix 4 4 ℚ :=
  ⟨fun i j =>
    if i = 0 then
      if j = 0 then -0.15385 else if j = 1 then -0.15385
      else if j = 2 then -0.28205 else -0.53846
    else if i = 1 then
      if j = 0 then -0.07692 else if j = 1 then 0.12308
      else if j = 2 then 0.02564 else 0.03077
    else if i = 2 then
      if j = 0 then 0.35897 else if j = 1 then 0.35897
      else if j = 2 then 0.43590 else 0.92308
    else
      if j = 0 then -0.69231 else if j = 1 then -0.69231
      else if j = 2 then -0.76923 else -1.92308⟩

/-- The elimination state after the pivot-0 iteration. -/
def exampleS1 : Fin 4 → Fin 4 → ℚ := fun i j =>
  if i = 0 then
    if j = 0 then 1/8 else if j = 1 then -5/8 else if j = 2 then 9/8
    else 1/4
  else if i = 1 then
    if j = 0 then -7/8 else if j = 1 then 75/8 else if j = 2 then -15/8
    else -3/4
  else if i = 2 then
    if j = 0 then 3/4 else if j = 1 then -15/4 else if j = 2 then 63/4
    else 15/2
  else
    if j = 0 then 3/8 else if j = 1 then -15/8 else if j = 2 then -45/8
    else -13/4

/-- The elimination state after the pivot-1 iteration. -/
def exampleS2 : Fin 4 → Fin 4 → ℚ := fun i j =>
  if i = 0 then
    if j = 0 then 1/15 else if j = 1 then 1/15 else if j = 2 then 1
    else 1/5
  else if i = 1 then
    if j = 0 then -7/75 else if j = 1 then 8/75 else if j = 2 then -1/5
    else -2/25
  else if i = 2 then
    if j = 0 then 2/5 else if j = 1 then 2/5 else if j = 2 then 15
    else 36/5
  else
    if j = 0 then 1/5 else if j = 1 then 1/5 else if j = 2 then -6
    else -17/5

/-- The elimination state after the pivot-2 iteration. -/
def exampleS3 : Fin 4 → Fin 4 → ℚ := fun i j =>
  if i = 0 then
    if j = 0 then 1/25 else if j = 1 then 1/25 else if j = 2 then -1/15
    else -7/25
  else if i = 1 then
    if j = 0 then -11/125 else if j = 1 then 14/125
    else if j = 2 then 1/75 else 2/125
  else if i = 2 then
    if j = 0 then 2/75 else if j = 1 then 2/75 else if j = 2 then 1/15
    else 12/25
  else
    if j = 0 then 9/25 else if j = 1 then 9/25 else if j = 2 then 2/5
    else -13/25

/-- The final elimination state: the exact inverse. -/
def exampleS4 : Fin 4 → Fin 4 → ℚ := fun i j =>
  if i = 0 then
    if j = 0 then -2/13 else if j = 1 then -2/13
    else if j = 2 then -11/39 else -7/13
  else if i = 1 then
    if j = 0 then -1/13 else if j = 1 then 8/65 else if j = 2 then 1/39
    else 2/65
  else if i = 2 then
    if j = 0 then 14/39 else if j = 1 then 14/39
    else if j = 2 then 17/39 else 12/13
  else
    if j = 0 then -9/13 else if j = 1 then -9/13
    else if j = 2 then -10/13 else -25/13

lemma exampleStage1 : gjStep exampleMatrix.rows 0 = exampleS1 := by
  funext i j
  fin_cases i <;> fin_cases j <;>
    simp +decide [gjStep, exampleMatrix, exampleS1] <;> norm_num

lemma exampleStage2 : gjStep exampleS1 1 = exampleS2 := by
  funext i j
  fin_cases i <;> fin_cases j <;>
    simp +decide [gjStep, exampleS1, exampleS2] <;> norm_num

lemma exampleStage3 : gjStep exampleS2 2 = exampleS3 := by
  funext i j
  fin_cases i <;> fin_cases j <;>
    simp +decide [gjStep, exampleS2, exampleS3] <;> norm_num

lemma exampleStage4 : gjStep exampleS3 3 = exampleS4 := by
  funext i j
  fin_cases i <;> fin_cases j <;>
    simp +decide [gjStep, exampleS3, exampleS4] <;> norm_num

lemma finRange_four : List.finRange 4 = [0, 1, 2, 3] := by decide

lemma exampleSpecInverse : exampleMatrix.specInverse = ⟨exampleS4⟩ := by
  rw [Matrix.specInverse, finRange_four]
  simp only [List.foldl_cons, List.foldl_nil]
  rw [exampleStage1, exampleStage2, exampleStage3, exampleStage4]

lemma examplePivots : exampleMatrix.PivotsNonzero := by
  intro p
  fin_cases p
  · show exampleMatrix.rows 0 0 ≠ 0
    simp +decide [exampleMatrix]
  · show gjStep exampleMatrix.rows 0 1 1 ≠ 0
    rw [exampleStage1]
    simp +decide [exampleS1]
  · show gjStep (gjStep exampleMatrix.rows 0) 1 2 2 ≠ 0
    rw [exampleStage1, exampleStage2]
    simp +decide [exampleS2]
  · show gjStep (gjStep (gjStep exampleMatrix.rows 0) 1) 2 3 3 ≠ 0
    rw [exampleStage1, exampleStage2, exampleStage3]
    simp +decide [exampleS3]

lemma Matrix.ne_of_entry {M M' : Matrix R C α} (i : Fin R) (j : Fin C)
    (h : M.rows i j ≠ M'.rows i j) : M ≠ M' :=
  fun he => h (by rw [he])

lemma mul_rows_apply (A : Matrix R N α) (B : Matrix N C α) (r : Fin R)
    (c : Fin C) :
    (A * B).rows r c = ∑ n, A.rows r n * B.rows n c := rfl

/-! ## The claims -/

/-- C7: `transpose` maps `Matrix<R,C>` to the `C×R` matrix whose rows are
the columns of the input, in column order, and transposing twice gives
back the original matrix exactly. -/
theorem transpose_swaps_rows_and_cols :
    ∀ (β : Type) [instβ : LinearOrderedField β] (R C : ℕ)
      (M : Matrix R C β),
      (∀ (r : Fin R) (c : Fin C), M.transpose.rows c r = M.rows r c)
      ∧ M.transpose.transpose = M := by
  intro β _ R C M
  exact ⟨fun r c => rfl, rfl⟩

/-- Witness for C7 at a concrete rectangular matrix. -/
theorem transpose_swaps_rows_and_cols_witness :
    (Matrix.new (fun i j => ![![1, 2, 3], ![4, 5, 6]] i j) :
        Matrix 2 3 ℚ).transpose.transpose
      = Matrix.new fun i j => ![![1, 2, 3], ![4, 5, 6]] i j :=
  (transpose_swaps_rows_and_cols ℚ 2 3
    (Matrix.new fun i j => ![![1, 2, 3], ![4, 5, 6]] i j)).2

/-- C8: `Vec3::magnitude` is the L1 norm — the sum of the absolute values
of the components, not the Euclidean length — and `Vec3::normalize`
returns the zero vector when the magnitude is zero, and otherwise divides
each component by the magnitude, after which the magnitude is `1` (within
the `Vec3` default tolerance). -/
theorem magnitude_l1_and_normalize :
    ∀ (β : Type) [instβ : LinearOrderedField β] (v : Vec3 β),
      v.magnitude = |v.x| + |v.y| + |v.z|
      ∧ (v.magnitude = 0 → v.normalize = Vec3.zero)
      ∧ (v.magnitude ≠ 0 →
          v.normalize
              = ⟨v.x / v.magnitude, v.y / v.magnitude, v.z / v.magnitude⟩
            ∧ |v.normalize.magnitude - 1| ≤ Vec3.defaultEpsilon) := by
  intro β _ v
  refine ⟨rfl, fun h => by simp [Vec3.normalize, h], fun h => ?_⟩
  have hpos : 0 < v.magnitude := by
    rcases lt_or_eq_of_le (show 0 ≤ v.magnitude from by
      rw [Vec3.magnitude]; positivity) with hlt | heq
    · exact hlt
    · exact absurd heq.symm h
  constructor
  · simp [Vec3.normalize, h]
  · have hmag : (Vec3.normalize v).magnitude = 1 := by
      simp only [Vec3.normalize, if_neg h]
      show |v.x / v.magnitude| + |v.y / v.magnitude| + |v.z / v.magnitude|
        = 1
      rw [abs_div, abs_div, abs_div, abs_of_pos hpos, div_add_div_same,
        div_add_div_same]
      rw [show |v.x| + |v.y| + |v.z| = v.magnitude from rfl]
      exact div_self h
    rw [hmag]
    norm_num [Vec3.defaultEpsilon]

/-- Witness for C8 at the zero vector and at `(1, 2, 3)`. -/
theorem magnitude_l1_and_normalize_witness :
    (Vec3.normalize (⟨0, 0, 0⟩ : Vec3 ℚ) = Vec3.zero)
    ∧ (Vec3.normalize (⟨1, 2, 3⟩ : Vec3 ℚ)
          = ⟨1 / 6, 2 / 6, 3 / 6⟩
        ∧ |(Vec3.normalize (⟨1, 2, 3⟩ : Vec3 ℚ)).magnitude - 1|
            ≤ Vec3.defaultEpsilon) := by
  constructor
  · exact (magnitude_l1_and_normalize ℚ ⟨0, 0, 0⟩).2.1
      (by norm_num [Vec3.magnitude])
  · have h := (magnitude_l1_and_normalize ℚ ⟨1, 2, 3⟩).2.2
      (by norm_num [Vec3.magnitude])
    refine ⟨?_, h.2⟩
    rw [h.1]
    norm_num [Vec3.magnitude]

/-- C3: `transform(entity, M)` lifts the entity to a homogeneous 4×1
column, left-multiplies by `M`, and lowers back by ignoring the trailing
coordinate — no division or normalization by it.  A `Point(x, y, z)` lifts
to the column `[x, y, z, 1]`, so the transformed point's coordinates are
the first three entries of `M × [x, y, z, 1]`, written out as the dot
products of the first three rows of `M` with `[x, y, z, 1]`. -/
theorem point_transform_is_homogeneous_multiply :
    ∀ (β : Type) [instβ : LinearOrderedField β] (p : Point β)
      (M : Matrix 4 4 β),
      p.toColumn = ⟨fun i _ => ![p.x, p.y, p.z, 1] i⟩
      ∧ p.transform M
          = Point.ofColumn (M * p.toColumn)
      ∧ p.transform M
          = ⟨M.rows 0 0 * p.x + M.rows 0 1 * p.y + M.rows 0 2 * p.z
              + M.rows 0 3,
            M.rows 1 0 * p.x + M.rows 1 1 * p.y + M.rows 1 2 * p.z
              + M.rows 1 3,
            M.rows 2 0 * p.x + M.rows 2 1 * p.y + M.rows 2 2 * p.z
              + M.rows 2 3⟩ := by
  intro β _ p M
  refine ⟨rfl, rfl, ?_⟩
  show Point.ofColumn (M * p.toColumn) = _
  have hcol : ∀ r : Fin 4, (M * p.toColumn).rows r 0
      = M.rows r 0 * p.x + M.rows r 1 * p.y + M.rows r 2 * p.z
        + M.rows r 3 * 1 := by
    intro r
    show ∑ n : Fin 4, M.rows r n * p.toColumn.cols 0 n = _
    rw [Fin.sum_univ_four]
    rfl
  show Point.mk ((M * p.toColumn).rows 0 0) ((M * p.toColumn).rows 1 0)
      ((M * p.toColumn).rows 2 0) = _
  rw [hcol 0, hcol 1, hcol 2]
  simp [mul_one]

/-- Witness for C3 at a concrete point and matrix. -/
theorem point_transform_is_homogeneous_multiply_witness :
    Point.transform (⟨1, 2, 3⟩ : Point ℚ) c3WitnessMatrix
      = Point.ofColumn (c3WitnessMatrix * Point.toColumn (⟨1, 2, 3⟩ : Point ℚ)) :=
  (point_transform_is_homogeneous_multiply ℚ ⟨1, 2, 3⟩ c3WitnessMatrix).2.1

/-- C4: `Vec3` does participate in `transform` (its homogeneous lift is
modelled from the spec as `[x, y, z, 0]`): `scale(2,3,4)` carries
`Vec3(-4,6,8)` to `Vec3(-8,18,32)`, exactly as it carries
`Point(-4,6,8)` to `Point(-8,18,32)` — scale acts identically on both
types, componentwise. -/
theorem vec3_participates_in_scale_transform :
    (Vec3.transform ⟨-4, 6, 8⟩ (scale (2 : ℚ) 3 4) = ⟨-8, 18, 32⟩)
    ∧ (Point.transform ⟨-4, 6, 8⟩ (scale (2 : ℚ) 3 4) = ⟨-8, 18, 32⟩)
    ∧ ∀ (β : Type) [instβ : LinearOrderedField β] (x y z sx sy sz : β),
        Vec3.transform ⟨x, y, z⟩ (scale sx sy sz)
            = ⟨sx * x, sy * y, sz * z⟩
        ∧ Point.transform ⟨x, y, z⟩ (scale sx sy sz)
            = ⟨sx * x, sy * y, sz * z⟩ := by
  have hgen : ∀ (β : Type) [instβ : LinearOrderedField β]
      (x y z sx sy sz : β),
      Vec3.transform ⟨x, y, z⟩ (scale sx sy sz)
          = ⟨sx * x, sy * y, sz * z⟩
      ∧ Point.transform ⟨x, y, z⟩ (scale sx sy sz)
          = ⟨sx * x, sy * y, sz * z⟩ := by
    intro β _ x y z sx sy sz
    constructor
    · show Vec3.ofColumn _ = _
      have hcol : ∀ r : Fin 4,
          ((scale sx sy sz) * (Vec3.mk x y z).toColumn).rows r 0
          = ∑ n : Fin 4, (scale sx sy sz).rows r n
              * ![x, y, z, 0] n := fun r => rfl
      show Vec3.mk _ _ _ = _
      rw [hcol 0, hcol 1, hcol 2]
      rw [Fin.sum_univ_four, Fin.sum_univ_four, Fin.sum_univ_four]
      simp +decide [scale, updateEntry, Matrix.identity]
    · show Point.ofColumn _ = _
      have hcol : ∀ r : Fin 4,
          ((scale sx sy sz) * (Point.mk x y z).toColumn).rows r 0
          = ∑ n : Fin 4, (scale sx sy sz).rows r n
              * ![x, y, z, 1] n := fun r => rfl
      show Point.mk _ _ _ = _
      rw [hcol 0, hcol 1, hcol 2]
      rw [Fin.sum_univ_four, Fin.sum_univ_four, Fin.sum_univ_four]
      simp +decide [scale, updateEntry, Matrix.identity]
  refine ⟨?_, ?_, hgen⟩
  · rw [(hgen ℚ (-4) 6 8 2 3 4).1]
    norm_num
  · rw [(hgen ℚ (-4) 6 8 2 3 4).2]
    norm_num

/-- Witness for C4's general componentwise statement at concrete values. -/
theorem vec3_participates_in_scale_transform_witness :
    Vec3.transform (⟨1, 2, 3⟩ : Vec3 ℚ) (scale 5 6 7)
      = ⟨5 * 1, 6 * 2, 7 * 3⟩ :=
  (vec3_participates_in_scale_transform.2.2 ℚ 1 2 3 5 6 7).1

/-- C5: `translate(x, y, z)` is the identity matrix with the fourth-column
entries of rows 0, 1, 2 set to `x`, `y`, `z`, so transforming a point
adds the offsets componentwise; in particular `translate(5, -3, 2)`
carries `Point(-3, 4, 5)` to `Point(2, 1, 7)` exactly. -/
theorem translate_is_identity_with_offsets :
    (∀ (β : Type) [instβ : LinearOrderedField β] (x y z : β),
      (∀ (i j : Fin 4), (translate x y z).rows i j
          = if i = 0 ∧ j = 3 then x
            else if i = 1 ∧ j = 3 then y
            else if i = 2 ∧ j = 3 then z
            else (Matrix.identity 4 β).rows i j)
      ∧ ∀ px py pz : β,
          Point.transform ⟨px, py, pz⟩ (translate x y z)
            = ⟨px + x, py + y, pz + z⟩)
    ∧ Point.transform (⟨-3, 4, 5⟩ : Point ℚ) (translate 5 (-3) 2)
        = ⟨2, 1, 7⟩ := by
  have hgen : ∀ (β : Type) [instβ : LinearOrderedField β] (x y z : β),
      (∀ (i j : Fin 4), (translate x y z).rows i j
          = if i = 0 ∧ j = 3 then x
            else if i = 1 ∧ j = 3 then y
            else if i = 2 ∧ j = 3 then z
            else (Matrix.identity 4 β).rows i j)
      ∧ ∀ px py pz : β,
          Point.transform ⟨px, py, pz⟩ (translate x y z)
            = ⟨px + x, py + y, pz + z⟩ := by
    intro β _ x y z
    constructor
    · intro i j
      fin_cases i <;> fin_cases j <;>
        simp +decide [translate, updateEntry, Matrix.identity]
    · intro px py pz
      show Point.ofColumn _ = _
      have hcol : ∀ r : Fin 4,
          ((translate x y z) * (Point.mk px py pz).toColumn).rows r 0
          = ∑ n : Fin 4, (translate x y z).rows r n
              * ![px, py, pz, 1] n := fun r => rfl
      show Point.mk _ _ _ = _
      rw [hcol 0, hcol 1, hcol 2]
      rw [Fin.sum_univ_four, Fin.sum_univ_four, Fin.sum_univ_four]
      simp +decide [translate, updateEntry, Matrix.identity]
  refine ⟨hgen, ?_⟩
  rw [(hgen ℚ 5 (-3) 2).2 (-3) 4 5]
  norm_num

/-- Witness for C5's translation statement at the spec's example point. -/
theorem translate_is_identity_with_offsets_witness :
    Point.transform (⟨-3, 4, 5⟩ : Point ℚ) (translate 5 (-3) 2)
      = ⟨-3 + 5, 4 + -3, 5 + 2⟩ :=
  (translate_is_identity_with_offsets.1 ℚ 5 (-3) 2).2 (-3) 4 5

/-- C9: epsilon equality on matrices holds iff every pair of corresponding
elements of the two row-major flattenings differs by at most the
tolerance, and the matrix default tolerance `1e-4` is strictly looser than
the `1e-10` default shared by `Vec3`, `Point` and `Color`. -/
theorem epsilon_equality_elementwise_and_defaults :
    (∀ (β : Type) [instβ : LinearOrderedField β] (R C : ℕ)
        (M M' : Matrix R C β) (ε : β),
        M.absDiffEq M' ε
          ↔ ∀ (r : Fin R) (c : Fin C), |M.rows r c - M'.rows r c| ≤ ε)
    ∧ (Matrix.defaultEpsilon : ℚ) = 1e-4
    ∧ (Vec3.defaultEpsilon : ℚ) = 1e-10
    ∧ (Point.defaultEpsilon : ℚ) = 1e-10
    ∧ (Color.defaultEpsilon : ℚ) = 1e-10
    ∧ (Vec3.defaultEpsilon : ℚ) < Matrix.defaultEpsilon := by
  refine ⟨fun β _ R C M M' ε => absDiffEq_iff M M' ε, ?_, ?_, ?_, ?_, ?_⟩
  · norm_num [Matrix.defaultEpsilon]
  · norm_num [Vec3.defaultEpsilon]
  · norm_num [Point.defaultEpsilon]
  · norm_num [Color.defaultEpsilon]
  · norm_num [Vec3.defaultEpsilon, Matrix.defaultEpsilon]

/-- Witness for C9's elementwise reading at concrete 2×2 matrices. -/
theorem epsilon_equality_elementwise_witness :
    (Matrix.new fun i j => ![![1, 2], ![3, 4]] i j : Matrix 2 2 ℚ).absDiffEq
        (Matrix.new fun i j => ![![1, 2], ![3, 4]] i j) 0
      ↔ ∀ (r c : Fin 2),
          |(Matrix.new fun i j => ![![1, 2], ![3, 4]] i j :
              Matrix 2 2 ℚ).rows r c
            - (Matrix.new fun i j => ![![1, 2], ![3, 4]] i j :
              Matrix 2 2 ℚ).rows r c| ≤ 0 :=
  (epsilon_equality_elementwise_and_defaults.1 ℚ 2 2 _ _ 0)

/-- C10: `Canvas::pixel_at(x, y)` (and the `Index` impl delegating to it)
reads the flat row-major index `y * width + x` without validating
`x < width`: when `x ≥ width` but the flat index is still in range the
access succeeds and yields the pixel of a later row, and it fails (panics
on the out-of-bounds `Vec` index, modelled as `none`) exactly when the
flat index reaches `width * height`. -/
theorem canvas_pixel_at_no_x_validation :
    ∀ (β : Type) [instβ : LinearOrderedField β] (c : Canvas β)
      (w h x y : ℕ), c.width = w → c.pixels.length = w * h → 0 < w →
      (c.pixelAt x y = c.pixels.get? (y * w + x))
      ∧ (w ≤ x → y * w + x < w * h →
          ∃ px : Color β, c.pixelAt x y = some px
            ∧ ∃ x' y', x' < w ∧ y < y'
              ∧ y' * w + x' = y * w + x ∧ c.pixelAt x' y' = some px)
      ∧ (w * h ≤ y * w + x → c.pixelAt x y = none) := by
  intro β _ c w h x y hw hlen hwpos
  have hpx : ∀ a b : ℕ, c.pixelAt a b = c.pixels.get? (b * w + a) := by
    intro a b
    rw [Canvas.pixelAt, hw]
  refine ⟨hpx x y, ?_, ?_⟩
  · intro hxw hidx
    have hlt : y * w + x < c.pixels.length := by rw [hlen]; exact hidx
    have hdm := Nat.div_add_mod (y * w + x) w
    have hcomm : (y * w + x) / w * w = w * ((y * w + x) / w) :=
      Nat.mul_comm _ _
    refine ⟨c.pixels.get ⟨y * w + x, hlt⟩, ?_, ?_⟩
    · rw [hpx x y]
      exact List.get?_eq_get hlt
    · refine ⟨(y * w + x) % w, (y * w + x) / w, Nat.mod_lt _ hwpos, ?_,
        ?_, ?_⟩
      · have h1 : (y + 1) * w ≤ y * w + x := by
          rw [add_mul, one_mul]
          omega
        have h2 : y + 1 ≤ (y * w + x) / w :=
          (Nat.le_div_iff_mul_le hwpos).mpr h1
        omega
      · omega
      · rw [hpx]
        have heq : (y * w + x) / w * w + (y * w + x) % w = y * w + x := by
          omega
        rw [heq]
        exact List.get?_eq_get hlt
  · intro hge
    rw [hpx x y]
    rw [List.get?_eq_none]
    rw [hlen]
    exact hge

/-- Witness for C10: on a 10×20 canvas, `pixel_at(12, 3)` succeeds with a
pixel of a later row, even though `12 ≥ width`. -/
theorem canvas_pixel_at_witness :
    ∃ px : Color ℚ, (Canvas.new 10 20 : Canvas ℚ).pixelAt 12 3 = some px
      ∧ ∃ x' y', x' < 10 ∧ 3 < y' ∧ y' * 10 + x' = 3 * 10 + 12
        ∧ (Canvas.new 10 20 : Canvas ℚ).pixelAt x' y' = some px :=
  (canvas_pixel_at_no_x_validation ℚ (Canvas.new 10 20) 10 20 12 3 rfl
    (by show (List.replicate (10 * 20) (Color.zero : Color ℚ)).length
          = 10 * 20
        rw [List.length_replicate])
    (by norm_num)).2.1 (by norm_num) (by norm_num)

/-- C1: for every square matrix whose elimination meets only nonzero
pivots — non-singular in the spec's sense — the product `M × M.inverse()`
is epsilon-equal to the identity of the same size at the default matrix
tolerance; in particular the inverse of the spec's 4×4 example matrix is
epsilon-equal to the expected matrix printed in the spec. -/
theorem inverse_mul_self_eps_eq_identity :
    (∀ (β : Type) [instβ : LinearOrderedField β] (T : ℕ)
        (M : Matrix T T β),
        M.PivotsNonzero →
          (M * M.inverse).absDiffEq (Matrix.identity T β)
            Matrix.defaultEpsilon)
    ∧ exampleMatrix.inverse.absDiffEq exampleInverseExpected
        Matrix.defaultEpsilon := by
  constructor
  · intro β _ T M hpiv
    rw [inverse_eq_specInverse]
    exact absDiffEq_of_eq _ _ _ (mul_specInverse M hpiv)
      (by norm_num [Matrix.defaultEpsilon])
  · rw [inverse_eq_specInverse, exampleSpecInverse, absDiffEq_iff]
    intro r c
    fin_cases r <;> fin_cases c <;>
      simp +decide [exampleS4, exampleInverseExpected,
        Matrix.defaultEpsilon, abs_le] <;> norm_num

/-- Witness for C1's general statement at the spec's example matrix: its
pivots are all nonzero and the product with its inverse is epsilon-equal
to the 4×4 identity. -/
theorem inverse_mul_self_eps_eq_identity_witness :
    exampleMatrix.PivotsNonzero
      ∧ (exampleMatrix * exampleMatrix.inverse).absDiffEq
          (Matrix.identity 4 ℚ) Matrix.defaultEpsilon :=
  ⟨examplePivots,
    inverse_mul_self_eps_eq_identity.1 ℚ 4 exampleMatrix examplePivots⟩

/-- C2: `Matrix::inverse` performs exactly the in-place Gauss-Jordan
elimination the spec describes, pivot by pivot in increasing order, each
iteration realizing the spec's four update formulas (with the stated
data flow: the already-updated column entry and the pre-update pivot
row). -/
theorem inverse_performs_specified_elimination :
    ∀ (β : Type) [instβ : LinearOrderedField β] (T : ℕ)
      (M : Matrix T T β), M.inverse = M.specInverse := by
  intro β _ T M
  exact inverse_eq_specInverse M

/-- Witness for C2 at the spec's example matrix. -/
theorem inverse_performs_specified_elimination_witness :
    exampleMatrix.inverse = exampleMatrix.specInverse :=
  inverse_performs_specified_elimination ℚ 4 exampleMatrix

/-- C6: `rotate(rx, ry, rz)` is the product
`rotate_x(rx) * rotate_y(ry) * rotate_z(rz)` in exactly that order — and
the order matters: at quarter-turn angles the product differs from every
one of the five other composition orders. -/
theorem rotate_composes_x_y_z_in_order :
    (∀ rx ry rz : ℝ, rotate Real.cos Real.sin rx ry rz
        = rotateX Real.cos Real.sin rx * rotateY Real.cos Real.sin ry
          * rotateZ Real.cos Real.sin rz)
    ∧ (rotate Real.cos Real.sin (Real.pi / 2) (Real.pi / 2) (Real.pi / 2)
          ≠ rotateX Real.cos Real.sin (Real.pi / 2)
            * rotateZ Real.cos Real.sin (Real.pi / 2)
            * rotateY Real.cos Real.sin (Real.pi / 2)
        ∧ rotate Real.cos Real.sin (Real.pi / 2) (Real.pi / 2) (Real.pi / 2)
          ≠ rotateY Real.cos Real.sin (Real.pi / 2)
            * rotateX Real.cos Real.sin (Real.pi / 2)
            * rotateZ Real.cos Real.sin (Real.pi / 2)
        ∧ rotate Real.cos Real.sin (Real.pi / 2) (Real.pi / 2) (Real.pi / 2)
          ≠ rotateY Real.cos Real.sin (Real.pi / 2)
            * rotateZ Real.cos Real.sin (Real.pi / 2)
            * rotateX Real.cos Real.sin (Real.pi / 2)
        ∧ rotate Real.cos Real.sin (Real.pi / 2) (Real.pi / 2) (Real.pi / 2)
          ≠ rotateZ Real.cos Real.sin (Real.pi / 2)
            * rotateX Real.cos Real.sin (Real.pi / 2)
            * rotateY Real.cos Real.sin (Real.pi / 2)
        ∧ rotate Real.cos Real.sin (Real.pi / 2) (Real.pi / 2) (Real.pi / 2)
          ≠ rotateZ Real.cos Real.sin (Real.pi / 2)
            * rotateY Real.cos Real.sin (Real.pi / 2)
            * rotateX Real.cos Real.sin (Real.pi / 2)) := by
  refine ⟨fun rx ry rz => rfl, ?_, ?_, ?_, ?_, ?_⟩
  · refine Matrix.ne_of_entry 0 1 ?_
    simp only [rotate, mul_rows_apply, Fin.sum_univ_four]
    simp +decide [rotateX, rotateY, rotateZ, updateEntry, Matrix.identity,
      Real.cos_pi_div_two, Real.sin_pi_div_two]
  · refine Matrix.ne_of_entry 0 0 ?_
    simp only [rotate, mul_rows_apply, Fin.sum_univ_four]
    simp +decide [rotateX, rotateY, rotateZ, updateEntry, Matrix.identity,
      Real.cos_pi_div_two, Real.sin_pi_div_two]
  · refine Matrix.ne_of_entry 0 1 ?_
    simp only [rotate, mul_rows_apply, Fin.sum_univ_four]
    simp +decide [rotateX, rotateY, rotateZ, updateEntry, Matrix.identity,
      Real.cos_pi_div_two, Real.sin_pi_div_two]
  · refine Matrix.ne_of_entry 0 0 ?_
    simp only [rotate, mul_rows_apply, Fin.sum_univ_four]
    simp +decide [rotateX, rotateY, rotateZ, updateEntry, Matrix.identity,
      Real.cos_pi_div_two, Real.sin_pi_div_two]
  · refine Matrix.ne_of_entry 1 1 ?_
    simp only [rotate, mul_rows_apply, Fin.sum_univ_four]
    simp +decide [rotateX, rotateY, rotateZ, updateEntry, Matrix.identity,
      Real.cos_pi_div_two, Real.sin_pi_div_two]
    norm_num

/-- Witness for C6's composition identity at concrete angles. -/
theorem rotate_composes_x_y_z_in_order_witness :
    rotate Real.cos Real.sin 1 2 3
      = rotateX Real.cos Real.sin 1 * rotateY Real.cos Real.sin 2
        * rotateZ Real.cos Real.sin 3 :=
  rotate_composes_x_y_z_in_order.1 1 2 3

end Raytracing
